import Mathlib

/-!
Shallow embedding of the SQL safety-validation layer of the
healthcare-data-explorer repository (`src/utils/security.py`, class
`SQLValidator`), together with theorems settling the frozen claims about it.

Strings are modelled as `List Char`.  Character classes (`\s`, `\w`,
`str.strip`) are modelled at ASCII precision, matching the ASCII ranges the
Python regexes name explicitly.  Python's `re.search` is modelled as a
left-to-right scan that tries the pattern at every position; the alternation
of write keywords tries the alternatives in their textual order, as Python's
regex engine does.  Python's `$` matches at the end of the string or just
before a trailing newline; `isSafeIdentifier` models that faithfully.
-/

/-- Python whitespace (`\s`, `str.strip`) restricted to ASCII:
space, tab, newline, carriage return, vertical tab, form feed. -/
def isSpace (c : Char) : Bool :=
  c = ' ' || c = '\t' || c = '\n' || c = '\r' || c = '\x0b' || c = '\x0c'

/-- Regex word character `\w` at ASCII precision: `[a-zA-Z0-9_]`. -/
def isWordChar (c : Char) : Bool :=
  ('a' ≤ c && c ≤ 'z') || ('A' ≤ c && c ≤ 'Z') || ('0' ≤ c && c ≤ '9') || c = '_'

/-- ASCII lower-casing, used to model `re.IGNORECASE`. -/
def lowerChar (c : Char) : Char :=
  if 'A' ≤ c && c ≤ 'Z' then Char.ofNat (c.toNat + 32) else c

/-- `str.lstrip()`: drop leading whitespace. -/
def lstrip (l : List Char) : List Char := l.dropWhile isSpace

/-- `str.rstrip()`: drop trailing whitespace. -/
def rstrip (l : List Char) : List Char := (l.reverse.dropWhile isSpace).reverse

/-- `str.strip()`: drop leading and trailing whitespace. -/
def strip (l : List Char) : List Char := rstrip (lstrip l)

/-- Case-insensitive "the text starts with this literal" test:
`ciStartsWith pat l` holds when `l` begins with the characters of `pat`,
compared after ASCII lower-casing. -/
def ciStartsWith : List Char → List Char → Bool
  | [], _ => true
  | _ :: _, [] => false
  | k :: ks, c :: cs => (lowerChar c == lowerChar k) && ciStartsWith ks cs

/-- `ciMatch pat m`: `m` is exactly the literal `pat` up to ASCII case. -/
def ciMatch (pat m : List Char) : Bool :=
  (m.length == pat.length) && ciStartsWith pat m

/-- The position just before this list is a word boundary coming from the
right: the list is empty or starts with a non-word character. -/
def headNonWord : List Char → Bool
  | [] => true
  | c :: _ => !isWordChar c

/-- `kwAt kw l`: the regex fragment `kw\b` matches at the head of `l`
(case-insensitively). -/
def kwAt (kw : List Char) (l : List Char) : Bool :=
  ciStartsWith kw l && headNonWord (l.drop kw.length)

/-- The fourteen write keywords of `SQLValidator.WRITE_KEYWORDS`, in their
source order; each is used with `\b` on both sides. -/
def WRITE_KEYWORDS : List (List Char) :=
  ["INSERT".toList, "UPDATE".toList, "DELETE".toList, "DROP".toList,
   "CREATE".toList, "ALTER".toList, "TRUNCATE".toList, "REPLACE".toList,
   "MERGE".toList, "GRANT".toList, "REVOKE".toList, "EXEC".toList,
   "EXECUTE".toList, "CALL".toList]

/-- First keyword of `kws` whose `kw\b` fragment matches at the head of `l`;
returns the matched text (`match.group()`), i.e. the corresponding slice of
`l` with its original case. -/
def firstKwMatch : List (List Char) → List Char → Option (List Char)
  | [], _ => none
  | kw :: rest, l => if kwAt kw l then some (l.take kw.length) else firstKwMatch rest l

/-- Left-to-right scan modelling `re.search` for the alternation
`\bINSERT\b|...|\bCALL\b`.  `prevOk` records whether the position we stand at
has a word boundary on its left (start of string, or previous character not a
word character); every keyword starts with a letter, so the leading `\b`
holds exactly when `prevOk` does. -/
def scanWrite : Bool → List Char → Option (List Char)
  | _, [] => none
  | prevOk, c :: rest =>
    match (if prevOk then firstKwMatch WRITE_KEYWORDS (c :: rest) else none) with
    | some m => some m
    | none => scanWrite (!isWordChar c) rest

/-- `self._write_pattern.search(normalized)`. -/
def findWrite (l : List Char) : Option (List Char) := scanWrite true l

/-- Greedy `\s*`. -/
def skipSpaces (l : List Char) : List Char := l.dropWhile isSpace

/-- Case-insensitive literal consumption: the rest of the text after the
literal, when it is there. -/
def ciAfter (pat : List Char) (l : List Char) : Option (List Char) :=
  if ciStartsWith pat l then some (l.drop pat.length) else none

/-- Greedy `\s+`: at least one whitespace character, then all following
whitespace. -/
def spaces1 : List Char → Option (List Char)
  | [] => none
  | c :: rest => if isSpace c then some (rest.dropWhile isSpace) else none

/-- `;\s*--` at the head of the text. -/
def matchAt1 (l : List Char) : Bool :=
  (((ciAfter [';'] l).map skipSpaces).bind (ciAfter "--".toList)).isSome

/-- `;\s*/\*` at the head of the text. -/
def matchAt2 (l : List Char) : Bool :=
  (((ciAfter [';'] l).map skipSpaces).bind (ciAfter "/*".toList)).isSome

/-- `UNION\s+ALL\s+SELECT` at the head of the text. -/
def matchAt3 (l : List Char) : Bool :=
  ((((ciAfter "UNION".toList l).bind spaces1).bind
      (ciAfter "ALL".toList)).bind (fun r => (spaces1 r).bind
        (ciAfter "SELECT".toList))).isSome

/-- `'\s*OR\s+'1'\s*=\s*'1` at the head of the text. -/
def matchAt4 (l : List Char) : Bool :=
  ((((((ciAfter ['\''] l).map skipSpaces).bind (ciAfter "OR".toList)).bind
      spaces1).bind (fun r => ((ciAfter "'1'".toList r).map skipSpaces).bind
        (ciAfter ['=']))).bind (fun r => ciAfter "'1".toList (skipSpaces r))).isSome

/-- `'\s*OR\s+1\s*=\s*1` at the head of the text. -/
def matchAt5 (l : List Char) : Bool :=
  ((((((ciAfter ['\''] l).map skipSpaces).bind (ciAfter "OR".toList)).bind
      spaces1).bind (fun r => ((ciAfter ['1'] r).map skipSpaces).bind
        (ciAfter ['=']))).bind (fun r => ciAfter ['1'] (skipSpaces r))).isSome

/-- `--\s*$` at the head of the text.  Python's `$` matches at the end of the
string or just before a trailing newline; since the newline is itself
whitespace, the pattern matches here exactly when everything after `--` is
whitespace. -/
def matchAt6 (l : List Char) : Bool :=
  ciStartsWith "--".toList l && (l.drop 2).all isSpace

/-- `;\s*DROP\b` at the head of the text. -/
def matchAt7 (l : List Char) : Bool :=
  match ((ciAfter [';'] l).map skipSpaces).bind (ciAfter "DROP".toList) with
  | some r => headNonWord r
  | none => false

/-- `WAITFOR\s+DELAY` at the head of the text. -/
def matchAt8 (l : List Char) : Bool :=
  (((ciAfter "WAITFOR".toList l).bind spaces1).bind (ciAfter "DELAY".toList)).isSome

/-- `BENCHMARK\s*\(` at the head of the text. -/
def matchAt9 (l : List Char) : Bool :=
  (((ciAfter "BENCHMARK".toList l).map skipSpaces).bind (ciAfter ['('])).isSome

/-- `SLEEP\s*\(` at the head of the text. -/
def matchAt10 (l : List Char) : Bool :=
  (((ciAfter "SLEEP".toList l).map skipSpaces).bind (ciAfter ['('])).isSome

/-- `pg_sleep` at the head of the text. -/
def matchAt11 (l : List Char) : Bool :=
  ciStartsWith "pg_sleep".toList l

/-- `re.search`: does the at-position matcher `p` succeed at some suffix? -/
def existsAt (p : List Char → Bool) : List Char → Bool
  | [] => p []
  | c :: rest => p (c :: rest) || existsAt p rest

/-- The loop over `self._injection_patterns`: some compiled injection pattern
matches somewhere in the text. -/
def anyInjection (l : List Char) : Bool :=
  existsAt matchAt1 l || existsAt matchAt2 l || existsAt matchAt3 l ||
  existsAt matchAt4 l || existsAt matchAt5 l || existsAt matchAt6 l ||
  existsAt matchAt7 l || existsAt matchAt8 l || existsAt matchAt9 l ||
  existsAt matchAt10 l || existsAt matchAt11 l

/-- `re.match(r"^\s*(SELECT|WITH)\b", normalized, re.IGNORECASE)`. -/
def anchorOk (l : List Char) : Bool :=
  kwAt "SELECT".toList (l.dropWhile isSpace) || kwAt "WITH".toList (l.dropWhile isSpace)

/-- `normalized.rstrip().endswith(";")` applied to an already right-stripped
argument by the caller. -/
def endsWithSemi (l : List Char) : Bool := l.getLast? == some ';'

/-- `SQLValidator.validate`, translated check by check from the source.
`maxLen` is `self.max_query_length` (constructor default 10000). -/
def validate (maxLen : Nat) (sql : List Char) : Bool × List Char :=
  if strip sql = [] then (false, "Empty query".toList)
  else if maxLen < sql.length then
    (false, "Query exceeds maximum length of ".toList ++ (toString maxLen).toList
      ++ " characters".toList)
  else if anchorOk (strip sql) then
    match findWrite (strip sql) with
    | some m => (false, "Write operation detected: ".toList ++ m)
    | none =>
      if anyInjection (strip sql) then
        (false, "Potential SQL injection pattern detected".toList)
      else if 1 < (strip sql).count ';' then
        (false, "Multiple SQL statements not allowed".toList)
      else if (strip sql).count ';' == 1 && !endsWithSemi (rstrip (strip sql)) then
        (false, "Semicolon only allowed at end of query".toList)
      else (true, [])
  else (false, "Query must start with SELECT or WITH".toList)

/-- `SQLValidator.sanitize_identifier`'s character class `[a-zA-Z0-9_]`
(the complement of the deleted class `[^a-zA-Z0-9_]`). -/
def isIdentChar (c : Char) : Bool :=
  ('a' ≤ c && c ≤ 'z') || ('A' ≤ c && c ≤ 'Z') || ('0' ≤ c && c ≤ '9') || c = '_'

/-- Leading character class `[a-zA-Z_]` of `is_safe_identifier`. -/
def isIdentStart (c : Char) : Bool :=
  ('a' ≤ c && c ≤ 'z') || ('A' ≤ c && c ≤ 'Z') || c = '_'

/-- `SQLValidator.sanitize_identifier`: `re.sub(r"[^a-zA-Z0-9_]", "", s)`,
the left-to-right scan that deletes every character outside the class. -/
def sanitizeIdentifier : List Char → List Char
  | [] => []
  | c :: rest => if isIdentChar c then c :: sanitizeIdentifier rest else sanitizeIdentifier rest

/-- `SQLValidator.is_safe_identifier`:
`bool(re.match(r"^[a-zA-Z_][a-zA-Z0-9_]*$", s))`.  After the leading
character, the greedy `[a-zA-Z0-9_]*` consumes every identifier character
(backtracking cannot help, because a shorter match leaves the position on an
identifier character, where `$` cannot hold); `$` then accepts the end of the
string or a single trailing newline. -/
def isSafeIdentifier : List Char → Bool
  | [] => false
  | c :: rest =>
    isIdentStart c &&
      (rest.dropWhile isIdentChar = [] || rest.dropWhile isIdentChar = ['\n'])

/-- Spec check 1 (emptiness): fail when the trimmed input has zero length. -/
def checkEmpty (sql : List Char) : Option (List Char) :=
  if strip sql = [] then some "Empty query".toList else none

/-- Spec check 2 (length bound): fail when the raw input length exceeds the
configured maximum, naming the limit. -/
def checkLength (maxLen : Nat) (sql : List Char) : Option (List Char) :=
  if maxLen < sql.length then
    some ("Query exceeds maximum length of ".toList ++ (toString maxLen).toList
      ++ " characters".toList)
  else none

/-- Spec check 3 (statement-kind anchor): the trimmed input must start with
`SELECT` or `WITH` at a word boundary. -/
def checkAnchor (sql : List Char) : Option (List Char) :=
  if anchorOk (strip sql) then none
  else some "Query must start with SELECT or WITH".toList

/-- Spec check 4 (write-keyword scan): fail with a reason naming the
offending keyword text. -/
def checkWrite (sql : List Char) : Option (List Char) :=
  (findWrite (strip sql)).map (fun m => "Write operation detected: ".toList ++ m)

/-- Spec check 5 (injection-signature scan): generic reason on any match. -/
def checkInjection (sql : List Char) : Option (List Char) :=
  if anyInjection (strip sql) then
    some "Potential SQL injection pattern detected".toList
  else none

/-- Spec check 6 (semicolon / statement-count guard). -/
def checkSemicolon (sql : List Char) : Option (List Char) :=
  if 1 < (strip sql).count ';' then some "Multiple SQL statements not allowed".toList
  else if (strip sql).count ';' == 1 && !endsWithSemi (rstrip (strip sql)) then
    some "Semicolon only allowed at end of query".toList
  else none

/-- The six checks in the exact order the spec lists them. -/
def orderedChecks (maxLen : Nat) (sql : List Char) : List (Option (List Char)) :=
  [checkEmpty sql, checkLength maxLen sql, checkAnchor sql, checkWrite sql,
   checkInjection sql, checkSemicolon sql]

/-- First failing check wins: the reason of the earliest check that fails. -/
def firstFail : List (Option (List Char)) → Option (List Char)
  | [] => none
  | some r :: _ => some r
  | none :: rest => firstFail rest

/-- The spec's description of `validate`: run the ordered checks, return the
verdict and reason of the first failing one, `(true, "")` when none fails. -/
def specValidate (maxLen : Nat) (sql : List Char) : Bool × List Char :=
  match firstFail (orderedChecks maxLen sql) with
  | some r => (false, r)
  | none => (true, [])

/-- The position just after this list is a word boundary coming from the
left: the list is empty or its last character is not a word character. -/
def leftNonWord (pre : List Char) : Bool :=
  match pre.getLast? with
  | none => true
  | some c => !isWordChar c

/-- The text contains a whole-word, case-insensitive occurrence of some write
keyword: a slice equal to the keyword up to case, with a word boundary on
each side. -/
def ContainsWriteKw (l : List Char) : Prop :=
  ∃ kw ∈ WRITE_KEYWORDS, ∃ pre mid post,
    l = pre ++ (mid ++ post) ∧ ciMatch kw mid = true ∧
    leftNonWord pre = true ∧ headNonWord post = true

/-- The text begins, case-insensitively, with the characters of some write
keyword. -/
def StartsWithWriteKw (l : List Char) : Prop :=
  ∃ kw ∈ WRITE_KEYWORDS, ciStartsWith kw l = true

/-- The text contains `UNION ALL SELECT`: the three words case-insensitively,
separated by runs of whitespace. -/
def UnionAllSelectOccurs (l : List Char) : Prop :=
  ∃ pre u w1 a w2 se post,
    l = pre ++ (u ++ (w1 ++ (a ++ (w2 ++ (se ++ post))))) ∧
    ciMatch "UNION".toList u = true ∧
    w1 ≠ [] ∧ w1.all isSpace = true ∧
    ciMatch "ALL".toList a = true ∧
    w2 ≠ [] ∧ w2.all isSpace = true ∧
    ciMatch "SELECT".toList se = true

/-- The spec's description of `is_safe_identifier`: the entire string is one
leading ASCII letter or underscore followed by zero or more ASCII letters,
digits, or underscores; the empty string fails. -/
def specSafeIdentifier : List Char → Bool
  | [] => false
  | c :: rest => isIdentStart c && rest.all isIdentChar

/-- Decidable edge check used in proofs: a keyword is non-empty and its first
and last characters stay non-whitespace after lower-casing. -/
def kwEdge (kw : List Char) : Bool :=
  match kw.head?, kw.getLast? with
  | some h, some t => !isSpace (lowerChar h) && !isSpace (lowerChar t)
  | _, _ => false

/-- Decidable check used in proofs: a keyword is non-empty and its first
character lower-cases to neither `s` nor `w`. -/
def kwFirstOk (kw : List Char) : Bool :=
  match kw.head? with
  | some h => !(lowerChar h == 's') && !(lowerChar h == 'w')
  | none => false

/-- C1: `validate` applies the six checks in the spec's order — emptiness,
length bound, SELECT/WITH anchor, write-keyword scan, injection scan,
semicolon guard — and returns the verdict and reason of the first failing
check, `(true, "")` when all pass. -/
theorem validate_is_first_failing_check (maxLen : Nat) (sql : List Char) :
    validate maxLen sql = specValidate maxLen sql := by
  by_cases h1 : strip sql = [] <;>
  by_cases h2 : maxLen < sql.length <;>
  by_cases h3 : anchorOk (strip sql) = true <;>
  rcases hw : findWrite (strip sql) with _ | m <;>
  by_cases h5 : anyInjection (strip sql) = true <;>
  by_cases h6 : 1 < (strip sql).count ';' <;>
  by_cases h7 : ((strip sql).count ';' == 1 && !endsWithSemi (rstrip (strip sql))) = true <;>
  simp [validate, specValidate, orderedChecks, firstFail, checkEmpty, checkLength,
    checkAnchor, checkWrite, checkInjection, checkSemicolon, h1, h2, h3, hw, h5, h6, h7]

theorem validate_fst_true_iff (maxLen : Nat) (sql : List Char) :
    (validate maxLen sql).1 = true ↔ validate maxLen sql = (true, []) := by
  by_cases h1 : strip sql = [] <;>
  by_cases h2 : maxLen < sql.length <;>
  by_cases h3 : anchorOk (strip sql) = true <;>
  rcases hw : findWrite (strip sql) with _ | m <;>
  by_cases h5 : anyInjection (strip sql) = true <;>
  by_cases h6 : 1 < (strip sql).count ';' <;>
  by_cases h7 : ((strip sql).count ';' == 1 && !endsWithSemi (rstrip (strip sql))) = true <;>
  simp [validate, h1, h2, h3, hw, h5, h6, h7]

theorem validate_ok_iff (maxLen : Nat) (sql : List Char) :
    validate maxLen sql = (true, []) ↔
      strip sql ≠ [] ∧ sql.length ≤ maxLen ∧ anchorOk (strip sql) = true ∧
      findWrite (strip sql) = none ∧ anyInjection (strip sql) = false ∧
      (strip sql).count ';' ≤ 1 ∧
      ((strip sql).count ';' = 1 → endsWithSemi (rstrip (strip sql)) = true) := by
  unfold validate
  by_cases h1 : strip sql = []
  · simp [h1]
  · rw [if_neg h1]
    by_cases h2 : maxLen < sql.length
    · rw [if_pos h2]
      constructor
      · intro h; simp at h
      · rintro ⟨-, hle, -⟩; omega
    · rw [if_neg h2]
      by_cases h3 : anchorOk (strip sql) = true
      · rw [if_pos h3]
        rcases hw : findWrite (strip sql) with _ | m
        · by_cases h5 : anyInjection (strip sql) = true
          · rw [if_pos h5]
            constructor
            · intro h; simp at h
            · rintro ⟨-, -, -, -, hinj, -⟩; simp [hinj] at h5
          · rw [if_neg h5]
            by_cases h6 : 1 < (strip sql).count ';'
            · rw [if_pos h6]
              constructor
              · intro h; simp at h
              · rintro ⟨-, -, -, -, -, hcnt, -⟩; omega
            · rw [if_neg h6]
              by_cases h7 : ((strip sql).count ';' == 1 &&
                  !endsWithSemi (rstrip (strip sql))) = true
              · rw [if_pos h7]
                rw [Bool.and_eq_true, beq_iff_eq, Bool.not_eq_true'] at h7
                constructor
                · intro h; simp at h
                · rintro ⟨-, -, -, -, -, -, himp⟩
                  rw [himp h7.1] at h7; simp at h7
              · rw [if_neg h7]
                rw [Bool.and_eq_true, beq_iff_eq, Bool.not_eq_true'] at h7
                constructor
                · intro _
                  refine ⟨h1, by omega, h3, rfl, by simpa using h5, by omega, ?_⟩
                  intro hc
                  cases hE : endsWithSemi (rstrip (strip sql)) with
                  | false => exact absurd ⟨hc, hE⟩ h7
                  | true => rfl
                · intro _; rfl
        · constructor
          · intro h; simp at h
          · rintro ⟨-, -, -, hfw, -⟩; simp at hfw
      · rw [if_neg h3]
        constructor
        · intro h; simp at h
        · rintro ⟨-, -, hanc, -⟩; exact absurd hanc h3

theorem append_ne_nil_left (a b : List Char) (ha : a ≠ []) : a ++ b ≠ [] := by
  cases a with
  | nil => exact absurd rfl ha
  | cons x xs => simp

theorem validate_shape (maxLen : Nat) (sql : List Char) :
    validate maxLen sql = (true, []) ∨
    ∃ r, r ≠ [] ∧ validate maxLen sql = (false, r) := by
  unfold validate
  by_cases h1 : strip sql = []
  · rw [if_pos h1]
    refine Or.inr ⟨_, ?_, rfl⟩; decide
  · rw [if_neg h1]
    by_cases h2 : maxLen < sql.length
    · rw [if_pos h2]
      refine Or.inr ⟨_, ?_, rfl⟩
      exact append_ne_nil_left _ _ (append_ne_nil_left _ _ (by decide))
    · rw [if_neg h2]
      by_cases h3 : anchorOk (strip sql) = true
      · rw [if_pos h3]
        rcases hw : findWrite (strip sql) with _ | m
        · by_cases h5 : anyInjection (strip sql) = true
          · rw [if_pos h5]
            refine Or.inr ⟨_, ?_, rfl⟩; decide
          · rw [if_neg h5]
            by_cases h6 : 1 < (strip sql).count ';'
            · rw [if_pos h6]
              refine Or.inr ⟨_, ?_, rfl⟩; decide
            · rw [if_neg h6]
              by_cases h7 : ((strip sql).count ';' == 1 &&
                  !endsWithSemi (rstrip (strip sql))) = true
              · rw [if_pos h7]
                refine Or.inr ⟨_, ?_, rfl⟩; decide
              · rw [if_neg h7]
                exact Or.inl rfl
        · refine Or.inr ⟨_, ?_, rfl⟩
          exact append_ne_nil_left _ _ (by decide)
      · rw [if_neg h3]
        refine Or.inr ⟨_, ?_, rfl⟩; decide

/-- C9: `validate` returns an empty reason exactly when the verdict is true:
the reason string is empty if and only if the query is accepted. -/
theorem validate_reason_empty_iff_valid (maxLen : Nat) (sql : List Char) :
    (validate maxLen sql).1 = true ↔ (validate maxLen sql).2 = [] := by
  rcases validate_shape maxLen sql with h | ⟨r, hr, h⟩
  · rw [h]; simp
  · rw [h]; simp [hr]

/-- C7: any input whose raw (untrimmed) length exceeds `max_query_length` is
rejected, regardless of content. -/
theorem validate_rejects_overlong (maxLen : Nat) (sql : List Char)
    (h : maxLen < sql.length) : (validate maxLen sql).1 = false := by
  unfold validate
  by_cases h1 : strip sql = []
  · rw [if_pos h1]
  · rw [if_neg h1, if_pos h]

theorem validate_rejects_overlong_witness :
    2 < ("abc".toList).length ∧ (validate 2 "abc".toList).1 = false :=
  ⟨by decide, validate_rejects_overlong 2 "abc".toList (by decide)⟩

theorem sanitizeIdentifier_eq_filter (l : List Char) :
    sanitizeIdentifier l = l.filter isIdentChar := by
  induction l with
  | nil => rfl
  | cons c rest ih => cases hc : isIdentChar c <;> simp [sanitizeIdentifier, hc, ih]

/-- C8: `sanitize_identifier` deletes exactly the characters outside
`[a-zA-Z0-9_]`: the output is a subsequence of the input (order kept, nothing
inserted), every kept character is in the class, every in-class occurrence is
kept; and the two documented examples hold. -/
theorem sanitizeIdentifier_deletes_non_ident :
    (∀ l : List Char, (sanitizeIdentifier l).Sublist l) ∧
    (∀ (l : List Char) (c : Char), c ∈ sanitizeIdentifier l → isIdentChar c = true) ∧
    (∀ (l : List Char) (c : Char), isIdentChar c = true →
      (sanitizeIdentifier l).count c = l.count c) ∧
    sanitizeIdentifier "user_name".toList = "user_name".toList ∧
    sanitizeIdentifier "a-b c;d".toList = "abcd".toList := by
  refine ⟨?_, ?_, ?_, by decide, by decide⟩
  · intro l; rw [sanitizeIdentifier_eq_filter]; exact List.filter_sublist l
  · intro l c hc; rw [sanitizeIdentifier_eq_filter] at hc; exact List.of_mem_filter hc
  · intro l c hc; rw [sanitizeIdentifier_eq_filter]; exact List.count_filter hc

theorem sanitizeIdentifier_deletes_non_ident_witness :
    ('b' ∈ sanitizeIdentifier "a-b".toList ∧ isIdentChar 'b' = true) ∧
    (isIdentChar 'a' = true ∧
      (sanitizeIdentifier "a-b c;d".toList).count 'a' = ("a-b c;d".toList).count 'a') :=
  ⟨⟨by decide, sanitizeIdentifier_deletes_non_ident.2.1 "a-b".toList 'b' (by decide)⟩,
   ⟨by decide, sanitizeIdentifier_deletes_non_ident.2.2.1 "a-b c;d".toList 'a' (by decide)⟩⟩

/-- C10: `sanitize_identifier` is idempotent — its output contains only
characters of the kept class, which a second pass leaves untouched. -/
theorem sanitizeIdentifier_idempotent (l : List Char) :
    sanitizeIdentifier (sanitizeIdentifier l) = sanitizeIdentifier l := by
  rw [sanitizeIdentifier_eq_filter, sanitizeIdentifier_eq_filter, List.filter_filter]
  simp [Bool.and_self]

theorem not_word_of_space (c : Char) (h : isSpace c = true) : isWordChar c = false := by
  unfold isSpace at h
  simp only [Bool.or_eq_true, decide_eq_true_eq] at h
  rcases h with ((((rfl | rfl) | rfl) | rfl) | rfl) | rfl <;> decide

theorem not_space_of_upper (c : Char) (h1 : 'A' ≤ c) (h2 : c ≤ 'Z') :
    isSpace c = false := by
  by_contra hc
  have h : isSpace c = true := by revert hc; cases isSpace c <;> simp
  unfold isSpace at h
  simp only [Bool.or_eq_true, decide_eq_true_eq] at h
  rcases h with ((((rfl | rfl) | rfl) | rfl) | rfl) | rfl <;> revert h1 <;> decide

theorem not_space_of_lower_eq (c t : Char) (ht : isSpace t = false)
    (h : lowerChar c = t) : isSpace c = false := by
  unfold lowerChar at h
  by_cases hc : ('A' ≤ c && c ≤ 'Z') = true
  · simp only [Bool.and_eq_true, decide_eq_true_eq] at hc
    exact not_space_of_upper c hc.1 hc.2
  · rw [if_neg hc] at h
    rw [h]
    exact ht

theorem dropWhile_append_keep (p : Char → Bool) (a b : List Char)
    (hb : ∀ c cs, b = c :: cs → p c = false) :
    (a ++ b).dropWhile p = a.dropWhile p ++ b := by
  induction a with
  | nil =>
    cases b with
    | nil => rfl
    | cons c cs => simp [List.dropWhile_cons, hb c cs rfl]
  | cons x xs ih =>
    cases hx : p x <;> simp [List.dropWhile_cons, hx, ih]

theorem dropWhile_append_all (p : Char → Bool) (a b : List Char)
    (ha : a.all p = true) : (a ++ b).dropWhile p = b.dropWhile p := by
  induction a with
  | nil => rfl
  | cons x xs ih =>
    simp only [List.all_cons, Bool.and_eq_true] at ha
    simp [List.dropWhile_cons, ha.1, ih ha.2]

theorem dropWhile_idem (p : Char → Bool) (l : List Char) :
    (l.dropWhile p).dropWhile p = l.dropWhile p := by
  induction l with
  | nil => rfl
  | cons x xs ih => cases hx : p x <;> simp [List.dropWhile_cons, hx, ih]

theorem all_takeWhile (p : Char → Bool) (l : List Char) :
    (l.takeWhile p).all p = true := by
  induction l with
  | nil => rfl
  | cons x xs ih => cases hx : p x <;> simp [List.takeWhile_cons, hx, ih]

theorem head?_dropWhile_not (p : Char → Bool) (l : List Char) (c : Char)
    (h : (l.dropWhile p).head? = some c) : p c = false := by
  induction l with
  | nil => simp at h
  | cons x xs ih =>
    cases hx : p x
    · rw [List.dropWhile_cons, if_neg (by simp [hx])] at h
      simp at h
      rw [← h]
      exact hx
    · rw [List.dropWhile_cons, if_pos (by simp [hx])] at h
      exact ih h

theorem dropWhile_getLast? (p : Char → Bool) (l : List Char)
    (h : l.dropWhile p ≠ []) : (l.dropWhile p).getLast? = l.getLast? := by
  conv_rhs => rw [← @List.takeWhile_append_dropWhile _ p l]
  rw [List.getLast?_append_of_ne_nil _ h]

theorem rev_strip_decomp (l : List Char) :
    (l.reverse.dropWhile isSpace).reverse ++ (l.reverse.takeWhile isSpace).reverse = l := by
  have h := congrArg List.reverse (@List.takeWhile_append_dropWhile _ isSpace l.reverse)
  rwa [List.reverse_append, List.reverse_reverse] at h

theorem rstrip_head? (l : List Char) (h : rstrip l ≠ []) :
    (rstrip l).head? = l.head? := by
  unfold rstrip at h ⊢
  conv_rhs => rw [← rev_strip_decomp l]
  rw [List.head?_append_of_ne_nil _ h]

theorem strip_slice (l : List Char) :
    ∃ lead tail, l = lead ++ (strip l ++ tail) ∧
      lead.all isSpace = true ∧ tail.all isSpace = true := by
  unfold strip rstrip lstrip
  refine ⟨l.takeWhile isSpace, ((l.dropWhile isSpace).reverse.takeWhile isSpace).reverse,
    ?_, all_takeWhile isSpace l, ?_⟩
  · conv_lhs => rw [← @List.takeWhile_append_dropWhile _ isSpace l]
    rw [rev_strip_decomp (l.dropWhile isSpace)]
  · rw [List.all_reverse]
    exact all_takeWhile isSpace (l.dropWhile isSpace).reverse

theorem count_semi_strip (l : List Char) : (strip l).count ';' = l.count ';' := by
  obtain ⟨lead, tail, hdec, hlead, htail⟩ := strip_slice l
  have hz : ∀ a : List Char, a.all isSpace = true → a.count ';' = 0 := by
    intro a ha
    rw [List.count_eq_zero]
    intro hm
    have := List.all_eq_true.mp ha _ hm
    exact absurd this (by decide)
  conv_rhs => rw [hdec]
  rw [List.count_append, List.count_append, hz lead hlead, hz tail htail]
  omega

theorem rstrip_strip (l : List Char) : rstrip (strip l) = strip l := by
  unfold strip rstrip lstrip
  rw [List.reverse_reverse, dropWhile_idem]

theorem lstrip_strip (l : List Char) : (strip l).dropWhile isSpace = strip l := by
  rcases hs : strip l with _ | ⟨c, cs⟩
  · rfl
  · have hne : rstrip (l.dropWhile isSpace) ≠ [] := by
      unfold strip lstrip at hs
      rw [hs]
      simp
    have h1 := rstrip_head? (l.dropWhile isSpace) hne
    have h2 : (strip l).head? = some c := by rw [hs]; rfl
    unfold strip lstrip at h2
    rw [h1] at h2
    have hc : isSpace c = false := head?_dropWhile_not isSpace l c h2
    rw [List.dropWhile_cons, if_neg (by simp [hc])]

theorem strip_decomp (pre mid post : List Char)
    (hh : ∃ c cs, mid = c :: cs ∧ isSpace c = false)
    (hl : ∃ c, mid.getLast? = some c ∧ isSpace c = false) :
    ∃ pre' post', strip (pre ++ (mid ++ post)) = pre' ++ (mid ++ post') ∧
      (pre' = [] ∨ pre'.getLast? = pre.getLast?) ∧
      (post' = [] ∨ post'.head? = post.head?) := by
  obtain ⟨c, cs, hmid, hcns⟩ := hh
  obtain ⟨d, hd, hdns⟩ := hl
  have s1 : (pre ++ (mid ++ post)).dropWhile isSpace =
      pre.dropWhile isSpace ++ (mid ++ post) := by
    apply dropWhile_append_keep
    intro e es he
    have h1 : (mid ++ post).head? = some e := by rw [he]; rfl
    rw [hmid] at h1
    simp at h1
    rw [← h1]
    exact hcns
  have s2 : rstrip (pre.dropWhile isSpace ++ (mid ++ post)) =
      pre.dropWhile isSpace ++ (mid ++ rstrip post) := by
    unfold rstrip
    rw [List.reverse_append, List.reverse_append, List.append_assoc]
    rw [dropWhile_append_keep isSpace post.reverse
      (mid.reverse ++ (pre.dropWhile isSpace).reverse) ?_]
    · rw [List.reverse_append, List.reverse_append, List.reverse_reverse,
        List.reverse_reverse, List.append_assoc]
    · intro e es he
      have h1 : (mid.reverse ++ (pre.dropWhile isSpace).reverse).head? = some e := by
        rw [he]; rfl
      have h2 : mid.reverse ≠ [] := by rw [hmid]; simp
      rw [List.head?_append_of_ne_nil _ h2, List.head?_reverse, hd] at h1
      injection h1 with h1
      rw [← h1]
      exact hdns
  refine ⟨pre.dropWhile isSpace, rstrip post, ?_, ?_, ?_⟩
  · unfold strip lstrip
    rw [s1, s2]
  · rcases hp : pre.dropWhile isSpace with _ | ⟨x, xs⟩
    · exact Or.inl rfl
    · refine Or.inr ?_
      rw [← hp]
      exact dropWhile_getLast? isSpace pre (by rw [hp]; simp)
  · rcases hq : rstrip post with _ | ⟨x, xs⟩
    · exact Or.inl rfl
    · refine Or.inr ?_
      rw [← hq]
      exact rstrip_head? post (by rw [hq]; simp)

theorem ciStartsWith_head (pat l : List Char) (k : Char) (hk : pat.head? = some k)
    (h : ciStartsWith pat l = true) :
    ∃ c cs, l = c :: cs ∧ lowerChar c = lowerChar k := by
  cases pat with
  | nil => simp at hk
  | cons p ps =>
    cases l with
    | nil => simp [ciStartsWith] at h
    | cons c cs =>
      injection hk with hk
      subst hk
      simp only [ciStartsWith, Bool.and_eq_true, beq_iff_eq] at h
      exact ⟨c, cs, rfl, h.1⟩

theorem ciStartsWith_append (pat a b : List Char) (h : ciStartsWith pat a = true) :
    ciStartsWith pat (a ++ b) = true := by
  induction pat generalizing a with
  | nil => rfl
  | cons k ks ih =>
    cases a with
    | nil => simp [ciStartsWith] at h
    | cons c cs =>
      simp only [List.cons_append, ciStartsWith, Bool.and_eq_true] at h ⊢
      exact ⟨h.1, ih cs h.2⟩

theorem ciStartsWith_take (pat l : List Char) (h : ciStartsWith pat l = true) :
    ciMatch pat (l.take pat.length) = true := by
  induction pat generalizing l with
  | nil => rfl
  | cons k ks ih =>
    cases l with
    | nil => simp [ciStartsWith] at h
    | cons c cs =>
      simp only [ciStartsWith, Bool.and_eq_true, beq_iff_eq] at h
      have hih := ih cs h.2
      simp only [ciMatch, Bool.and_eq_true, beq_iff_eq] at hih ⊢
      refine ⟨?_, ?_⟩
      · simp only [List.length_cons, List.take_succ_cons]
        simp [hih.1]
      · simp only [List.length_cons, List.take_succ_cons, ciStartsWith,
          Bool.and_eq_true, beq_iff_eq]
        exact ⟨h.1, hih.2⟩

theorem ciMatch_head (pat m : List Char) (k : Char) (hm : ciMatch pat m = true)
    (hk : pat.head? = some k) :
    ∃ c cs, m = c :: cs ∧ lowerChar c = lowerChar k := by
  simp only [ciMatch, Bool.and_eq_true] at hm
  exact ciStartsWith_head pat m k hk hm.2

theorem ciMatch_last (pat m : List Char) (k : Char) (hm : ciMatch pat m = true)
    (hk : pat.getLast? = some k) :
    ∃ c, m.getLast? = some c ∧ lowerChar c = lowerChar k := by
  induction pat generalizing m with
  | nil => simp at hk
  | cons p ps ih =>
    simp only [ciMatch, Bool.and_eq_true, beq_iff_eq] at hm
    obtain ⟨hlen, hsw⟩ := hm
    cases m with
    | nil => simp at hlen
    | cons c cs =>
      simp only [ciStartsWith, Bool.and_eq_true, beq_iff_eq] at hsw
      cases ps with
      | nil =>
        injection hk with hk
        have hcs : cs = [] := by
          cases cs with
          | nil => rfl
          | cons d ds => simp at hlen
        subst hcs
        refine ⟨c, rfl, ?_⟩
        rw [← hk]
        exact hsw.1
      | cons q qs =>
        have hk' : (q :: qs).getLast? = some k := by
          rw [← List.getLast?_cons_cons]
          exact hk
        have hm' : ciMatch (q :: qs) cs = true := by
          simp only [ciMatch, Bool.and_eq_true, beq_iff_eq]
          refine ⟨?_, hsw.2⟩
          simp only [List.length_cons] at hlen ⊢
          omega
        obtain ⟨e, he, hle⟩ := ih cs hm' hk'
        refine ⟨e, ?_, hle⟩
        have hne : cs ≠ [] := by
          intro h0
          rw [h0] at he
          simp at he
        cases cs with
        | nil => exact absurd rfl hne
        | cons d ds =>
          rw [List.getLast?_cons_cons]
          exact he

theorem kwAt_of_match (kw mid post : List Char) (hm : ciMatch kw mid = true)
    (hp : headNonWord post = true) : kwAt kw (mid ++ post) = true := by
  simp only [ciMatch, Bool.and_eq_true, beq_iff_eq] at hm
  obtain ⟨hlen, hsw⟩ := hm
  simp only [kwAt, Bool.and_eq_true]
  refine ⟨ciStartsWith_append kw mid post hsw, ?_⟩
  rw [← hlen, List.drop_left]
  exact hp

theorem firstKwMatch_isSome (kws : List (List Char)) (l kw : List Char)
    (hkw : kw ∈ kws) (h : kwAt kw l = true) :
    (firstKwMatch kws l).isSome = true := by
  induction kws with
  | nil => cases hkw
  | cons k ks ih =>
    by_cases hk : kwAt k l = true
    · simp [firstKwMatch, hk]
    · rcases List.mem_cons.mp hkw with rfl | hm
      · exact absurd h hk
      · simp [firstKwMatch, hk, ih hm]

theorem firstKwMatch_sound (kws : List (List Char)) (l m : List Char) (h : firstKwMatch kws l = some m) :
    ∃ kw ∈ kws, kwAt kw l = true ∧ m = l.take kw.length := by
  induction kws with
  | nil => simp [firstKwMatch] at h
  | cons k ks ih =>
    by_cases hk : kwAt k l = true
    · simp only [firstKwMatch, if_pos hk] at h
      injection h with h
      exact ⟨k, List.mem_cons_self k ks, hk, h.symm⟩
    · simp only [firstKwMatch, if_neg hk] at h
      obtain ⟨kw, hkw, hat, hm⟩ := ih h
      exact ⟨kw, List.mem_cons_of_mem k hkw, hat, hm⟩

theorem scanWrite_complete (pre : List Char) :
    ∀ (prevOk : Bool) (kw mid post : List Char), kw ∈ WRITE_KEYWORDS →
      ciMatch kw mid = true → headNonWord post = true →
      (pre = [] → prevOk = true) →
      (∀ c, pre.getLast? = some c → isWordChar c = false) →
      (scanWrite prevOk (pre ++ (mid ++ post))).isSome = true := by
  induction pre with
  | nil =>
    intro prevOk kw mid post hkw hm hp hpre _
    have hOk : prevOk = true := hpre rfl
    subst hOk
    have hkne : mid ≠ [] := by
      intro hmid
      subst hmid
      simp only [ciMatch, Bool.and_eq_true, beq_iff_eq] at hm
      have h0 : kw = [] := List.length_eq_zero.mp hm.1.symm
      have hall : WRITE_KEYWORDS.all (fun k => !k.isEmpty) = true := by decide
      have hx := List.all_eq_true.mp hall kw hkw
      rw [h0] at hx
      simp at hx
    obtain ⟨c, cs, rfl⟩ : ∃ c cs, mid = c :: cs := by
      cases mid with
      | nil => exact absurd rfl hkne
      | cons c cs => exact ⟨c, cs, rfl⟩
    have hat : kwAt kw ((c :: cs) ++ post) = true := kwAt_of_match kw (c :: cs) post hm hp
    have hfk := firstKwMatch_isSome WRITE_KEYWORDS ((c :: cs) ++ post) kw hkw hat
    obtain ⟨m, hm'⟩ := Option.isSome_iff_exists.mp hfk
    rw [List.cons_append] at hm'
    show (scanWrite true ([] ++ ((c :: cs) ++ post))).isSome = true
    simp only [List.nil_append, List.cons_append]
    simp [scanWrite, hm']
  | cons x xs ih =>
    intro prevOk kw mid post hkw hm hp _ hlast
    have hside1 : xs = [] → (!isWordChar x) = true := by
      intro hxs
      subst hxs
      have hx := hlast x (by simp)
      simp [hx]
    have hside2 : ∀ c, xs.getLast? = some c → isWordChar c = false := by
      intro c hc
      apply hlast
      cases xs with
      | nil => simp at hc
      | cons y ys =>
        rw [List.getLast?_cons_cons]
        exact hc
    have hih := ih (!isWordChar x) kw mid post hkw hm hp hside1 hside2
    show (scanWrite prevOk ((x :: xs) ++ (mid ++ post))).isSome = true
    rw [List.cons_append]
    cases prevOk with
    | false => simp [scanWrite, hih]
    | true =>
      rcases hfk : firstKwMatch WRITE_KEYWORDS (x :: (xs ++ (mid ++ post))) with _ | m0
      · simp [scanWrite, hfk, hih]
      · simp [scanWrite, hfk]

theorem scanWrite_sound (l : List Char) :
    ∀ (prevOk : Bool) (m : List Char), scanWrite prevOk l = some m →
      ∃ kw ∈ WRITE_KEYWORDS, ∃ pre mid post,
        l = pre ++ (mid ++ post) ∧ ciMatch kw mid = true ∧ headNonWord post = true ∧
        ((pre = [] ∧ prevOk = true) ∨
          (∃ c, pre.getLast? = some c ∧ isWordChar c = false)) := by
  induction l with
  | nil =>
    intro prevOk m h
    simp [scanWrite] at h
  | cons x rest ih =>
    intro prevOk m h
    rcases hif : (if prevOk then firstKwMatch WRITE_KEYWORDS (x :: rest) else none)
      with _ | m0
    · have h' : scanWrite (!isWordChar x) rest = some m := by
        simp only [scanWrite, hif] at h
        exact h
      obtain ⟨kw, hkw, pre, mid, post, hdec, hm, hp, hside⟩ := ih (!isWordChar x) m h'
      refine ⟨kw, hkw, x :: pre, mid, post, by rw [List.cons_append, hdec], hm, hp,
        Or.inr ?_⟩
      rcases hside with ⟨hpre, hOk⟩ | ⟨c, hc, hcw⟩
      · subst hpre
        refine ⟨x, by simp, ?_⟩
        simpa using hOk
      · refine ⟨c, ?_, hcw⟩
        have hne : pre ≠ [] := by
          intro h0
          rw [h0] at hc
          simp at hc
        cases pre with
        | nil => exact absurd rfl hne
        | cons y ys =>
          rw [List.getLast?_cons_cons]
          exact hc
    · have hOk : prevOk = true := by
        cases prevOk
        · simp at hif
        · rfl
      subst hOk
      rw [if_pos rfl] at hif
      have hm0 : m0 = m := by
        simp only [scanWrite, hif] at h
        injection h
      subst hm0
      obtain ⟨kw, hkw, hat, htake⟩ := firstKwMatch_sound WRITE_KEYWORDS (x :: rest) m0 hif
      simp only [kwAt, Bool.and_eq_true] at hat
      obtain ⟨hsw, hnb⟩ := hat
      refine ⟨kw, hkw, [], (x :: rest).take kw.length, (x :: rest).drop kw.length,
        by rw [List.nil_append, List.take_append_drop], ciStartsWith_take kw (x :: rest) hsw,
        hnb, Or.inl ⟨rfl, rfl⟩⟩

theorem findWrite_complete (l : List Char) (h : ContainsWriteKw l) :
    (findWrite l).isSome = true := by
  obtain ⟨kw, hkw, pre, mid, post, hdec, hm, hlb, hrb⟩ := h
  subst hdec
  have hpre : ∀ c, pre.getLast? = some c → isWordChar c = false := by
    intro c hc
    unfold leftNonWord at hlb
    rw [hc] at hlb
    simpa using hlb
  exact scanWrite_complete pre true kw mid post hkw hm hrb (fun _ => rfl) hpre

theorem findWrite_sound (l m : List Char) (h : findWrite l = some m) :
    ContainsWriteKw l := by
  obtain ⟨kw, hkw, pre, mid, post, hdec, hm, hp, hside⟩ := scanWrite_sound l true m h
  refine ⟨kw, hkw, pre, mid, post, hdec, hm, ?_, hp⟩
  rcases hside with ⟨hpre, _⟩ | ⟨c, hc, hcw⟩
  · subst hpre
    rfl
  · unfold leftNonWord
    rw [hc]
    simp [hcw]

theorem ContainsWriteKw_strip (l : List Char) (h : ContainsWriteKw l) :
    ContainsWriteKw (strip l) := by
  obtain ⟨kw, hkw, pre, mid, post, hdec, hm, hlb, hrb⟩ := h
  have hke : kwEdge kw = true := by
    have hall : WRITE_KEYWORDS.all kwEdge = true := by decide
    exact List.all_eq_true.mp hall kw hkw
  rcases hhk : kw.head? with _ | hk
  · unfold kwEdge at hke
    rw [hhk] at hke
    simp at hke
  rcases hlk : kw.getLast? with _ | tk
  · unfold kwEdge at hke
    rw [hhk, hlk] at hke
    simp at hke
  unfold kwEdge at hke
  rw [hhk, hlk] at hke
  simp only [Bool.and_eq_true, Bool.not_eq_true'] at hke
  obtain ⟨c, cs, hmid, hcl⟩ := ciMatch_head kw mid hk hm hhk
  obtain ⟨d, hd, hdl⟩ := ciMatch_last kw mid tk hm hlk
  subst hdec
  obtain ⟨pre', post', hs, hpre, hpost⟩ := strip_decomp pre mid post
    ⟨c, cs, hmid, not_space_of_lower_eq c (lowerChar hk) hke.1 hcl⟩
    ⟨d, hd, not_space_of_lower_eq d (lowerChar tk) hke.2 hdl⟩
  refine ⟨kw, hkw, pre', mid, post', hs, hm, ?_, ?_⟩
  · rcases hpre with rfl | hpe
    · rfl
    · unfold leftNonWord at hlb ⊢
      rw [hpe]
      exact hlb
  · rcases hpost with rfl | hpo
    · rfl
    · cases post' with
      | nil => rfl
      | cons e es =>
        cases post with
        | nil => simp at hpo
        | cons f fs =>
          simp only [List.head?_cons, Option.some.injEq] at hpo
          subst hpo
          simpa [headNonWord] using hrb

theorem ContainsWriteKw_of_strip (l : List Char) (h : ContainsWriteKw (strip l)) :
    ContainsWriteKw l := by
  obtain ⟨kw, hkw, pre, mid, post, hdec, hm, hlb, hrb⟩ := h
  obtain ⟨lead, tail, hslice, hlead, htail⟩ := strip_slice l
  refine ⟨kw, hkw, lead ++ pre, mid, post ++ tail, ?_, hm, ?_, ?_⟩
  · rw [hslice, hdec]
    simp [List.append_assoc]
  · unfold leftNonWord at hlb ⊢
    cases pre with
    | nil =>
      rw [List.append_nil]
      rcases hl2 : lead.getLast? with _ | c
      · simp
      · have hc : isSpace c = true :=
          List.all_eq_true.mp hlead c (List.mem_of_mem_getLast? hl2)
        simp [not_word_of_space c hc]
    | cons y ys =>
      rw [List.getLast?_append_of_ne_nil _ (by simp)]
      exact hlb
  · cases post with
    | nil =>
      rw [List.nil_append]
      cases tail with
      | nil => rfl
      | cons t ts =>
        have ht : isSpace t = true := List.all_eq_true.mp htail t (by simp)
        simp [headNonWord, not_word_of_space t ht]
    | cons p ps =>
      rw [List.cons_append]
      simpa [headNonWord] using hrb

/-- C3: every string containing a whole-word, case-insensitive occurrence of
a write keyword anywhere (even inside a quoted literal) is rejected; in
particular every string whose trimmed form begins, case-insensitively, with a
write keyword is rejected. -/
theorem validate_rejects_write_keywords (maxLen : Nat) (sql : List Char) :
    (ContainsWriteKw sql → (validate maxLen sql).1 = false) ∧
    (StartsWithWriteKw (strip sql) → (validate maxLen sql).1 = false) := by
  constructor
  · intro h
    cases hv : (validate maxLen sql).1 with
    | false => rfl
    | true =>
      have hok := (validate_ok_iff maxLen sql).mp ((validate_fst_true_iff maxLen sql).mp hv)
      have hc := ContainsWriteKw_strip sql h
      have hsome := findWrite_complete (strip sql) hc
      rw [hok.2.2.2.1] at hsome
      simp at hsome
  · intro h
    cases hv : (validate maxLen sql).1 with
    | false => rfl
    | true =>
      have hok := (validate_ok_iff maxLen sql).mp ((validate_fst_true_iff maxLen sql).mp hv)
      have hanc := hok.2.2.1
      unfold anchorOk at hanc
      rw [lstrip_strip sql] at hanc
      simp only [Bool.or_eq_true] at hanc
      obtain ⟨kw, hkw, hsw⟩ := h
      have hkf : kwFirstOk kw = true := by
        have hall : WRITE_KEYWORDS.all kwFirstOk = true := by decide
        exact List.all_eq_true.mp hall kw hkw
      rcases hhk : kw.head? with _ | hk
      · unfold kwFirstOk at hkf
        rw [hhk] at hkf
        simp at hkf
      unfold kwFirstOk at hkf
      rw [hhk] at hkf
      simp only [Bool.and_eq_true, Bool.not_eq_true', beq_eq_false_iff_ne, ne_eq] at hkf
      obtain ⟨c, cs, hl, hcl⟩ := ciStartsWith_head kw (strip sql) hk hhk hsw
      rcases hanc with hsel | hwith
      · simp only [kwAt, Bool.and_eq_true] at hsel
        obtain ⟨c2, cs2, hl2, hcl2⟩ := ciStartsWith_head "SELECT".toList (strip sql) 'S'
          (by decide) hsel.1
        rw [hl] at hl2
        injection hl2 with he _
        exact (hkf.1 (by rw [← hcl, he, hcl2]; decide)).elim
      · simp only [kwAt, Bool.and_eq_true] at hwith
        obtain ⟨c2, cs2, hl2, hcl2⟩ := ciStartsWith_head "WITH".toList (strip sql) 'W'
          (by decide) hwith.1
        rw [hl] at hl2
        injection hl2 with he _
        exact (hkf.2 (by rw [← hcl, he, hcl2]; decide)).elim

theorem validate_rejects_write_keywords_witness :
    (validate 10000 "a DROP b".toList).1 = false ∧
    (validate 10000 "insert into t".toList).1 = false :=
  ⟨(validate_rejects_write_keywords 10000 "a DROP b".toList).1
      ⟨"DROP".toList, by decide, "a ".toList, "DROP".toList, " b".toList,
        by decide, by decide, by decide, by decide⟩,
   (validate_rejects_write_keywords 10000 "insert into t".toList).2
      ⟨"INSERT".toList, by decide, by decide⟩⟩

/-- C2 (amended): a string whose trimmed form starts with `SELECT` or `WITH`
at a word boundary, whose raw length is within the configured bound, which
contains no whole-word write keyword, whose trimmed form matches no injection
pattern, and which contains at most one semicolon that — when present — is
its last non-whitespace character, is accepted with an empty reason. -/
theorem validate_accepts_safe_select (maxLen : Nat) (sql : List Char)
    (hanc : anchorOk (strip sql) = true)
    (hlen : sql.length ≤ maxLen)
    (hw : ¬ContainsWriteKw sql)
    (hinj : anyInjection (strip sql) = false)
    (hcnt : sql.count ';' ≤ 1)
    (hsemi : sql.count ';' = 1 → endsWithSemi (strip sql) = true) :
    validate maxLen sql = (true, []) := by
  rw [validate_ok_iff]
  refine ⟨?_, hlen, hanc, ?_, hinj, ?_, ?_⟩
  · intro h0
    rw [h0] at hanc
    exact absurd hanc (by decide)
  · rcases hfw : findWrite (strip sql) with _ | m
    · rfl
    · exact absurd (ContainsWriteKw_of_strip sql (findWrite_sound (strip sql) m hfw)) hw
  · rw [count_semi_strip]
    exact hcnt
  · rw [count_semi_strip]
    intro h1
    rw [rstrip_strip]
    exact hsemi h1

theorem validate_accepts_safe_select_witness :
    validate 10000 "SELECT * FROM t;".toList = (true, []) :=
  validate_accepts_safe_select 10000 "SELECT * FROM t;".toList (by decide) (by decide)
    (fun h => by
      have hc := findWrite_complete "SELECT * FROM t;".toList h
      have hn : findWrite "SELECT * FROM t;".toList = none := by decide
      rw [hn] at hc
      simp at hc)
    (by decide) (by decide) (fun _ => by decide)

/-- C2 as literally stated is false on the code: `"SELECTIVITY"` begins
(case-insensitively, after trimming) with `SELECT`, contains no whole-word
write keyword, matches no injection pattern, and contains no semicolon, yet
`validate` rejects it (the anchor requires a word boundary after the leading
token); and `"SELECT 11 FROM t"` satisfies every stated premise yet is
rejected by a validator configured with `max_query_length = 3` (the stated
premises ignore the length bound). -/
theorem validate_accepts_all_select_counterexample :
    (ciStartsWith "SELECT".toList (strip "SELECTIVITY".toList) = true ∧
      ¬ContainsWriteKw "SELECTIVITY".toList ∧
      anyInjection (strip "SELECTIVITY".toList) = false ∧
      ("SELECTIVITY".toList).count ';' = 0 ∧
      (validate 10000 "SELECTIVITY".toList).1 = false) ∧
    (anchorOk (strip "SELECT 11 FROM t".toList) = true ∧
      ¬ContainsWriteKw "SELECT 11 FROM t".toList ∧
      anyInjection (strip "SELECT 11 FROM t".toList) = false ∧
      ("SELECT 11 FROM t".toList).count ';' = 0 ∧
      (validate 3 "SELECT 11 FROM t".toList).1 = false) := by
  refine ⟨⟨by decide, ?_, by decide, by decide, by decide⟩,
    ⟨by decide, ?_, by decide, by decide, by decide⟩⟩
  · intro h
    have hc := findWrite_complete "SELECTIVITY".toList h
    have hn : findWrite "SELECTIVITY".toList = none := by decide
    rw [hn] at hc
    simp at hc
  · intro h
    have hc := findWrite_complete "SELECT 11 FROM t".toList h
    have hn : findWrite "SELECT 11 FROM t".toList = none := by decide
    rw [hn] at hc
    simp at hc

theorem existsAt_append (p : List Char → Bool) (pre suf : List Char)
    (h : p suf = true) : existsAt p (pre ++ suf) = true := by
  induction pre with
  | nil =>
    cases suf with
    | nil => simpa [existsAt] using h
    | cons c cs => simp [existsAt, h]
  | cons x xs ih => simp [existsAt, ih]

theorem dropWhile_all_keep (w b : List Char) (hw : w.all isSpace = true)
    (hb : ∀ c cs, b = c :: cs → isSpace c = false) :
    (w ++ b).dropWhile isSpace = b := by
  rw [dropWhile_append_all isSpace w b hw]
  cases b with
  | nil => rfl
  | cons c cs => rw [List.dropWhile_cons, if_neg (by simp [hb c cs rfl])]

theorem matchAt3_complete (u w1 a w2 se rest : List Char)
    (hu : ciMatch "UNION".toList u = true)
    (hw1 : w1 ≠ []) (hw1s : w1.all isSpace = true)
    (ha : ciMatch "ALL".toList a = true)
    (hw2 : w2 ≠ []) (hw2s : w2.all isSpace = true)
    (hse : ciMatch "SELECT".toList se = true) :
    matchAt3 (u ++ (w1 ++ (a ++ (w2 ++ (se ++ rest))))) = true := by
  obtain ⟨ca, csa, ha0, hcla⟩ := ciMatch_head "ALL".toList a 'A' ha (by decide)
  obtain ⟨cs', css, hs0, hcls⟩ := ciMatch_head "SELECT".toList se 'S' hse (by decide)
  simp only [ciMatch, Bool.and_eq_true, beq_iff_eq] at hu ha hse
  have h1 : ciAfter "UNION".toList (u ++ (w1 ++ (a ++ (w2 ++ (se ++ rest))))) =
      some (w1 ++ (a ++ (w2 ++ (se ++ rest)))) := by
    unfold ciAfter
    rw [if_pos (ciStartsWith_append _ _ _ hu.2), ← hu.1, List.drop_left]
  obtain ⟨s0, w1', rfl⟩ : ∃ s0 w1', w1 = s0 :: w1' := by
    cases w1 with
    | nil => exact absurd rfl hw1
    | cons s0 w1' => exact ⟨s0, w1', rfl⟩
  simp only [List.all_cons, Bool.and_eq_true] at hw1s
  have h2 : spaces1 ((s0 :: w1') ++ (a ++ (w2 ++ (se ++ rest)))) =
      some (a ++ (w2 ++ (se ++ rest))) := by
    rw [List.cons_append]
    simp only [spaces1]
    rw [if_pos (by simp [hw1s.1])]
    congr 1
    apply dropWhile_all_keep w1' _ hw1s.2
    intro c cs hc
    rw [ha0, List.cons_append] at hc
    injection hc with hc1 _
    rw [← hc1]
    exact not_space_of_lower_eq ca (lowerChar 'A') (by decide) hcla
  have h3 : ciAfter "ALL".toList (a ++ (w2 ++ (se ++ rest))) =
      some (w2 ++ (se ++ rest)) := by
    unfold ciAfter
    rw [if_pos (ciStartsWith_append _ _ _ ha.2), ← ha.1, List.drop_left]
  obtain ⟨s1, w2', rfl⟩ : ∃ s1 w2', w2 = s1 :: w2' := by
    cases w2 with
    | nil => exact absurd rfl hw2
    | cons s1 w2' => exact ⟨s1, w2', rfl⟩
  simp only [List.all_cons, Bool.and_eq_true] at hw2s
  have h4 : spaces1 ((s1 :: w2') ++ (se ++ rest)) = some (se ++ rest) := by
    rw [List.cons_append]
    simp only [spaces1]
    rw [if_pos (by simp [hw2s.1])]
    congr 1
    apply dropWhile_all_keep w2' _ hw2s.2
    intro c cs hc
    rw [hs0, List.cons_append] at hc
    injection hc with hc1 _
    rw [← hc1]
    exact not_space_of_lower_eq cs' (lowerChar 'S') (by decide) hcls
  have h5 : ciAfter "SELECT".toList (se ++ rest) = some rest := by
    unfold ciAfter
    rw [if_pos (ciStartsWith_append _ _ _ hse.2), ← hse.1, List.drop_left]
  unfold matchAt3
  rw [h1, Option.some_bind, h2, Option.some_bind, h3, Option.some_bind, h4,
    Option.some_bind, h5]
  rfl

theorem UnionAllSelect_strip (l : List Char) (h : UnionAllSelectOccurs l) :
    UnionAllSelectOccurs (strip l) := by
  obtain ⟨pre, u, w1, a, w2, se, post, hdec, hu, hw1, hw1s, ha, hw2, hw2s, hse⟩ := h
  have hre : l = pre ++ ((u ++ (w1 ++ (a ++ (w2 ++ se)))) ++ post) := by
    rw [hdec]
    simp [List.append_assoc]
  obtain ⟨cu, cus, hu0, hcu⟩ := ciMatch_head "UNION".toList u 'U' hu (by decide)
  obtain ⟨dse, hdse, hdl⟩ := ciMatch_last "SELECT".toList se 'T' hse (by decide)
  have hsene : se ≠ [] := by
    intro h0
    rw [h0] at hdse
    simp at hdse
  have hhead : ∃ c cs, (u ++ (w1 ++ (a ++ (w2 ++ se)))) = c :: cs ∧ isSpace c = false := by
    rw [hu0, List.cons_append]
    exact ⟨cu, _, rfl, not_space_of_lower_eq cu (lowerChar 'U') (by decide) hcu⟩
  have hlast : ∃ c, (u ++ (w1 ++ (a ++ (w2 ++ se)))).getLast? = some c ∧
      isSpace c = false := by
    refine ⟨dse, ?_, not_space_of_lower_eq dse (lowerChar 'T') (by decide) hdl⟩
    rw [List.getLast?_append_of_ne_nil _ (by simp [hsene]),
      List.getLast?_append_of_ne_nil _ (by simp [hsene]),
      List.getLast?_append_of_ne_nil _ (by simp [hsene]),
      List.getLast?_append_of_ne_nil _ hsene]
    exact hdse
  obtain ⟨pre', post', hs, hpre, hpost⟩ :=
    strip_decomp pre (u ++ (w1 ++ (a ++ (w2 ++ se)))) post hhead hlast
  rw [hre]
  refine ⟨pre', u, w1, a, w2, se, post', ?_, hu, hw1, hw1s, ha, hw2, hw2s, hse⟩
  rw [hs]
  simp [List.append_assoc]

/-- C4 (amended): the end-to-end injection scenario returns
`(false, "Potential SQL injection pattern detected")` — the code capitalizes
the reason's first letter, unlike the claim's quoted lowercase string — and
more generally any query containing `UNION ALL SELECT` (case-insensitive,
whitespace-separated) is rejected, while a bare `UNION SELECT` without `ALL`
does not trigger the injection scan: a concrete such query is accepted. -/
theorem validate_union_all_select :
    validate 10000
        "SELECT * FROM users WHERE id = 1 UNION ALL SELECT password FROM admin".toList =
      (false, "Potential SQL injection pattern detected".toList) ∧
    (∀ (maxLen : Nat) (sql : List Char), UnionAllSelectOccurs sql →
      (validate maxLen sql).1 = false) ∧
    validate 10000 "SELECT a FROM t UNION SELECT b FROM u".toList = (true, []) := by
  refine ⟨by decide, ?_, by decide⟩
  intro maxLen sql h
  cases hv : (validate maxLen sql).1 with
  | false => rfl
  | true =>
    have hok := (validate_ok_iff maxLen sql).mp ((validate_fst_true_iff maxLen sql).mp hv)
    obtain ⟨pre, u, w1, a, w2, se, post, hdec, hu, hw1, hw1s, ha, hw2, hw2s, hse⟩ :=
      UnionAllSelect_strip sql h
    have hm3 : matchAt3 (u ++ (w1 ++ (a ++ (w2 ++ (se ++ post))))) = true :=
      matchAt3_complete u w1 a w2 se post hu hw1 hw1s ha hw2 hw2s hse
    have hex : existsAt matchAt3 (strip sql) = true := by
      rw [hdec]
      exact existsAt_append matchAt3 pre _ hm3
    have hinj : anyInjection (strip sql) = true := by
      unfold anyInjection
      simp [hex]
    rw [hok.2.2.2.2.1] at hinj
    simp at hinj

theorem validate_union_all_select_witness :
    (validate 10000 "x UNION ALL SELECT y".toList).1 = false :=
  validate_union_all_select.2.1 10000 "x UNION ALL SELECT y".toList
    ⟨"x ".toList, "UNION".toList, " ".toList, "ALL".toList, " ".toList, "SELECT".toList,
      " y".toList, by decide, by decide, by decide, by decide, by decide, by decide,
      by decide, by decide⟩

/-- C4 as literally stated is false on one point: the reason string the code
returns for the end-to-end scenario is capitalized, so it is not the claim's
exact lowercase `"potential SQL injection pattern detected"`. -/
theorem validate_union_all_select_counterexample :
    validate 10000
        "SELECT * FROM users WHERE id = 1 UNION ALL SELECT password FROM admin".toList ≠
      (false, "potential SQL injection pattern detected".toList) := by decide

theorem dropWhile_eq_nil_of_all (p : Char → Bool) (l : List Char)
    (h : l.all p = true) : l.dropWhile p = [] := by
  induction l with
  | nil => rfl
  | cons x xs ih =>
    simp only [List.all_cons, Bool.and_eq_true] at h
    simp [List.dropWhile_cons, h.1, ih h.2]

theorem all_of_dropWhile_eq_nil (p : Char → Bool) (l : List Char)
    (h : l.dropWhile p = []) : l.all p = true := by
  induction l with
  | nil => rfl
  | cons x xs ih =>
    cases hx : p x
    · rw [List.dropWhile_cons, if_neg (by simp [hx])] at h
      simp at h
    · rw [List.dropWhile_cons, if_pos (by simp [hx])] at h
      simp [List.all_cons, hx, ih h]

/-- C5: `is_safe_identifier` is claimed to accept exactly the whole-string
identifier pattern, and the spec's reading (`specSafeIdentifier`) does; but
the code anchors with Python's `$`, which also matches just before a trailing
newline, so the code accepts `"a\n"` where the claim requires rejection.  The
full account: the code accepts exactly the spec-conforming identifiers plus
any such identifier followed by one trailing newline. -/
theorem isSafeIdentifier_dollar_newline :
    isSafeIdentifier "a\n".toList = true ∧
    specSafeIdentifier "a\n".toList = false ∧
    (∀ l : List Char, isSafeIdentifier l = true ↔
      (specSafeIdentifier l = true ∨
        ∃ l', l = l' ++ ['\n'] ∧ specSafeIdentifier l' = true)) := by
  refine ⟨by decide, by decide, ?_⟩
  intro l
  cases l with
  | nil =>
    simp only [isSafeIdentifier, specSafeIdentifier]
    constructor
    · intro h
      simp at h
    · rintro (h | ⟨l', hl', _⟩)
      · simp at h
      · have := congrArg List.length hl'
        simp at this
  | cons c rest =>
    simp only [isSafeIdentifier, specSafeIdentifier, Bool.and_eq_true]
    constructor
    · rintro ⟨hstart, htail⟩
      simp only [Bool.or_eq_true, decide_eq_true_eq] at htail
      rcases htail with hnil | hnl
      · left
        exact ⟨hstart, all_of_dropWhile_eq_nil isIdentChar rest hnil⟩
      · right
        refine ⟨c :: rest.takeWhile isIdentChar, ?_, ?_⟩
        · rw [List.cons_append]
          congr 1
          conv_lhs => rw [← @List.takeWhile_append_dropWhile _ isIdentChar rest]
          rw [hnl]
        · simp only [specSafeIdentifier, Bool.and_eq_true]
          exact ⟨hstart, all_takeWhile isIdentChar rest⟩
    · rintro (⟨hstart, hall⟩ | ⟨l', hl', hspec⟩)
      · refine ⟨hstart, ?_⟩
        simp only [Bool.or_eq_true, decide_eq_true_eq]
        exact Or.inl (dropWhile_eq_nil_of_all isIdentChar rest hall)
      · cases l' with
        | nil => simp [specSafeIdentifier] at hspec
        | cons c' rest' =>
          rw [List.cons_append] at hl'
          injection hl' with hc hrest
          simp only [specSafeIdentifier, Bool.and_eq_true] at hspec
          refine ⟨by rw [hc]; exact hspec.1, ?_⟩
          simp only [Bool.or_eq_true, decide_eq_true_eq]
          right
          rw [hrest, dropWhile_append_all isIdentChar rest' ['\n'] hspec.2]
          decide

/-- C6: for queries passing the earlier checks, more than one semicolon in
the trimmed query is rejected as multiple statements; exactly one semicolon
is accepted exactly when it is the last (non-whitespace) character of the
trimmed query, and rejected as misplaced otherwise. -/
theorem validate_semicolon_guard (maxLen : Nat) (sql : List Char)
    (h1 : strip sql ≠ []) (h2 : sql.length ≤ maxLen)
    (h3 : anchorOk (strip sql) = true)
    (h4 : findWrite (strip sql) = none)
    (h5 : anyInjection (strip sql) = false) :
    (1 < (strip sql).count ';' →
      validate maxLen sql = (false, "Multiple SQL statements not allowed".toList)) ∧
    ((strip sql).count ';' = 1 →
      (endsWithSemi (strip sql) = true → validate maxLen sql = (true, [])) ∧
      (endsWithSemi (strip sql) = false →
        validate maxLen sql = (false, "Semicolon only allowed at end of query".toList))) := by
  unfold validate
  rw [if_neg h1, if_neg (by omega : ¬maxLen < sql.length), if_pos h3, h4,
    if_neg (by simp [h5])]
  constructor
  · intro hgt
    rw [if_pos hgt]
  · intro heq
    rw [if_neg (by omega : ¬1 < (strip sql).count ';')]
    constructor
    · intro hend
      have hc : ¬(((strip sql).count ';' == 1 && !endsWithSemi (rstrip (strip sql))) = true) := by
        rw [rstrip_strip]
        simp [heq, hend]
      rw [if_neg hc]
    · intro hend
      have hc : ((strip sql).count ';' == 1 && !endsWithSemi (rstrip (strip sql))) = true := by
        rw [rstrip_strip]
        simp [heq, hend]
      rw [if_pos hc]

theorem validate_semicolon_guard_witness :
    (validate 10000 "SELECT 1;;".toList =
      (false, "Multiple SQL statements not allowed".toList)) ∧
    (validate 10000 "SELECT 1;".toList = (true, [])) ∧
    (validate 10000 "SELECT 1; x".toList =
      (false, "Semicolon only allowed at end of query".toList)) :=
  ⟨(validate_semicolon_guard 10000 "SELECT 1;;".toList (by decide) (by decide)
      (by decide) (by decide) (by decide)).1 (by decide),
   ((validate_semicolon_guard 10000 "SELECT 1;".toList (by decide) (by decide)
      (by decide) (by decide) (by decide)).2 (by decide)).1 (by decide),
   ((validate_semicolon_guard 10000 "SELECT 1; x".toList (by decide) (by decide)
      (by decide) (by decide) (by decide)).2 (by decide)).2 (by decide)⟩
